import Mathlib

/-!
# dockerstats: the streaming monitor and the CLI communicator

A shallow embedding of `monitor.go`, `communicator.go` and `dockerstats.go`.

* Go values: a slice is `Option (List α)` (`none` is the nil slice), an `error`
  is `Option GoError` (`none` is the nil error), a string handed to
  `strings.Split` is a list of bytes.
* `CliCommunicator.Stats` and `Current` are pure functions of the outcome of
  the external command and of the JSON decoder.
* `Monitor.start`, `Monitor.Stop` and the consumer of `Stream` run
  concurrently. They are embedded as an interleaving transition system
  (`step`) over `MState`: every statement that touches shared state (the
  mutex, the `stopped` flag, the channel, the communicator) is one atomic
  step, and any goroutine whose next statement is enabled may take it.
* `NewMonitor` stores the variadic slice without a copy and `start` passes
  `m.Filters...` itself to `Comm.Stats`, so the elements of `Filters` are
  shared with the caller and with the communicator. `stepEnv` adds to `step`
  the write of one element of that shared slice by either of them.
-/

namespace Dockerstats

/-! ## Go values -/

/-- A non-nil Go `error` value; the nil error is `Option.none`. -/
abbrev GoError := String

/-- A Go slice: `none` is the nil slice, `some l` a non-nil slice with the
elements `l` (so `some []` is what `make([]T, 0)` returns). -/
abbrev Slice (α : Type) := Option (List α)

/-- The builtin `len` on a slice. -/
def Slice.len {α : Type} : Slice α → Nat
  | none => 0
  | some l => l.length

/-- Modelled from the spec: the `Memory` part of the `Stats` struct, whose
declaration is not among the source files (raw string and percent string). -/
structure MemoryStats where
  raw : String
  percent : String
deriving DecidableEq, Repr

/-- Modelled from the spec: the network and block part of the `Stats` struct,
whose declaration is not among the source files. -/
structure TransferStats where
  network : String
  block : String
deriving DecidableEq, Repr

/-- Modelled from the spec: the `Stats` struct, whose declaration is not among
the source files: container identifier, container name, memory, cpu percent
string, network and block transfer, process count. -/
structure Stats where
  containerID : String
  containerName : String
  memory : MemoryStats
  cpu : String
  transfer : TransferStats
  pids : Nat
deriving DecidableEq, Repr

/-- Modelled from the spec: the `StatsResult` struct, whose declaration is not
among the source files; `monitor.go` lines 63-66 build it from its two
fields `Stats` and `Error`. -/
structure StatsResult where
  stats : Slice Stats
  error : Option GoError
deriving DecidableEq, Repr

/-- A result has its `Stats` field populated when the slice is not nil. -/
def StatsResult.hasStats (r : StatsResult) : Bool := r.stats.isSome

/-- A result has its `Error` field populated when the error is not nil. -/
def StatsResult.hasError (r : StatsResult) : Bool := r.error.isSome

/-- Exactly one of the two fields of a result is populated. -/
def StatsResult.exactlyOne (r : StatsResult) : Bool := xor r.hasStats r.hasError

/-! ## communicator.go -/

/-- A byte of a Go string. -/
abbrev Byte := Nat

/-- The newline byte, the separator of line 51 of `communicator.go`. -/
def newline : Byte := 10

/-- The library call `strings.Split(s, "\n")`: the pieces of `s` between
consecutive newline bytes; `k` newlines give `k + 1` pieces. -/
def splitLines : List Byte → List (List Byte)
  | [] => [[]]
  | c :: cs =>
    if c = newline then [] :: splitLines cs
    else
      match splitLines cs with
      | [] => [[c]]
      | l :: ls => (c :: l) :: ls

/-- The pair `([]Stats, error)` returned by `Communicator.Stats`. -/
abbrev StatsReturn := Slice Stats × Option GoError

/-- The loop `for _, con := range containers` of `CliCommunicator.Stats`
(lines 53-64), with `stats` the slice built so far: an empty line is skipped,
a line that fails to decode returns `nil, err`, a decoded line is appended. -/
def decodeLines (unmarshal : List Byte → Except GoError Stats) :
    List (List Byte) → List Stats → StatsReturn
  | [], stats => (some stats, none)
  | con :: rest, stats =>
    if con.length = 0 then decodeLines unmarshal rest stats
    else
      match unmarshal con with
      | .error err => (none, some err)
      | .ok s => decodeLines unmarshal rest (stats ++ [s])

/-- The struct `CliCommunicator`. -/
structure CliCommunicator where
  DockerPath : String
  Command : List String
deriving DecidableEq, Repr

/-- The argument list of lines 41-44: `c.Command`, followed by the filters when
there are any. -/
def CliCommunicator.args (c : CliCommunicator) (filters : List String) : List String :=
  if filters.length > 0 then c.Command ++ filters else c.Command

/-- The method `CliCommunicator.Stats`. `run` stands for
`exec.Command(path, args...).Output()` and `unmarshal` for `json.Unmarshal`
into a fresh `Stats`. -/
def CliCommunicator.Stats (run : String → List String → Except GoError (List Byte))
    (unmarshal : List Byte → Except GoError Stats)
    (c : CliCommunicator) (filters : List String) : StatsReturn :=
  match run c.DockerPath (c.args filters) with
  | .error err => (none, some err)
  | .ok out => decodeLines unmarshal (splitLines out) []

/-! ## dockerstats.go -/

/-- The function `Current`: it returns what `comm.Stats(filters...)` returns. -/
def Current (comm : List String → StatsReturn) (filters : List String) : StatsReturn :=
  comm filters

/-! ## monitor.go -/

/-- The program counter of the goroutine running `Monitor.start`. -/
inductive LoopPc where
  /-- Line 51: about to `m.mu.Lock()`. -/
  | lock
  /-- Line 52: holding the mutex, about to read `m.stopped`. -/
  | read
  /-- Line 55: holding the mutex with the local `stopped`, about to unlock. -/
  | unlock (stopped : Bool)
  /-- Line 57: the test `if stopped`; next is line 58 or line 62. -/
  | test (stopped : Bool)
  /-- Line 62: the call `m.Comm.Stats(m.Filters...)` is in flight. -/
  | inStats
  /-- Line 63: the call returned, blocked on `m.Stream <- result`. -/
  | send (r : StatsResult)
  /-- After `break`: `start` has returned. -/
  | exited
deriving DecidableEq, Repr

/-- The program counter of one caller of `Monitor.Stop`. -/
inductive StopPc where
  /-- The caller has not called `Stop` yet. -/
  | idle
  /-- Line 42: `Stop` was called, about to `m.mu.Lock()`. -/
  | lock
  /-- Line 43: holding the mutex, about to set `m.stopped = true`. -/
  | set
  /-- Line 44: about to `m.mu.Unlock()`. -/
  | unlock
  /-- The call to `Stop` has returned. -/
  | returned
deriving DecidableEq, Repr

/-- The `Monitor` struct together with the goroutines working on it.
`closed` and `received` are the unbuffered channel `Stream` (a send completes
exactly when the consumer receives, so `received` lists the values sent so
far); `calls`, `returns` and `closes` record what happened: the argument list
of each `Comm.Stats` call, what each call returned, and how often
`close(m.Stream)` ran. `Filters` is the current content of the slice that
the field `Filters` holds. -/
structure MState where
  closed : Bool
  received : List StatsResult
  Filters : List String
  mu : Bool
  stopped : Bool
  loop : LoopPc
  stoppers : List StopPc
  calls : List (List String)
  returns : List StatsReturn
  closes : Nat
deriving DecidableEq, Repr

/-- The function `NewMonitor(comm, filters...)`: a fresh channel, the filters
stored, the mutex free, `stopped` false and `start` launched at the top of its
loop. `k` is the number of callers that may later call `Stop`. Line 33 stores
the slice it is given, not a copy: `Filters` here is the current content of
that slice, which `writeStep` lets its other holders change. -/
def NewMonitor (filters : List String) (k : Nat) : MState :=
  { closed := false, received := [], Filters := filters, mu := false, stopped := false,
    loop := .lock, stoppers := List.replicate k .idle, calls := [], returns := [], closes := 0 }

/-- One step of the system. -/
inductive Action where
  /-- The goroutine of `start` runs its next statement of lines 51-62. -/
  | loop
  /-- The `Comm.Stats` call in flight returns `(s, err)`. -/
  | ret (s : Slice Stats) (err : Option GoError)
  /-- The consumer receives from `Stream`: the send of line 63 completes. -/
  | recv
  /-- The caller number `i` of `Stop` runs its next statement. -/
  | stop (i : Nat)
deriving DecidableEq, Repr

/-- The next statement of `Monitor.start` (lines 51-62). Closing a channel
that is closed already panics: the step is then not enabled. -/
def startStep (w : MState) : Option MState :=
  match w.loop with
  | .lock => if w.mu then none else some { w with mu := true, loop := .read }
  | .read => some { w with loop := .unlock w.stopped }
  | .unlock b => some { w with mu := false, loop := .test b }
  | .test true =>
    if w.closed then none
    else some { w with closed := true, closes := w.closes + 1, loop := .exited }
  | .test false => some { w with calls := w.calls ++ [w.Filters], loop := .inStats }
  | .inStats => none
  | .send _ => none
  | .exited => none

/-- The call of line 62 returns `(s, err)`; lines 63-66 wrap the pair in a
`StatsResult` and start the send. What the communicator assigns to the
elements of the slice it was given while the call runs is a `writeStep` of
`stepEnv`. -/
def retStep (w : MState) (s : Slice Stats) (err : Option GoError) : Option MState :=
  match w.loop with
  | .inStats => some { w with returns := w.returns ++ [(s, err)],
                              loop := .send { stats := s, error := err } }
  | _ => none

/-- The send of line 63 completes and the loop goes back to line 51. Sending
on a closed channel panics: the step is then not enabled. -/
def recvStep (w : MState) : Option MState :=
  match w.loop with
  | .send r =>
    if w.closed then none
    else some { w with received := w.received ++ [r], loop := .lock }
  | _ => none

/-- The next statement of caller `i` of `Monitor.Stop` (lines 42-44). -/
def stopStep (w : MState) (i : Nat) : Option MState :=
  match w.stoppers[i]? with
  | some .idle => some { w with stoppers := w.stoppers.set i .lock }
  | some .lock =>
    if w.mu then none else some { w with mu := true, stoppers := w.stoppers.set i .set }
  | some .set => some { w with stopped := true, stoppers := w.stoppers.set i .unlock }
  | some .unlock => some { w with mu := false, stoppers := w.stoppers.set i .returned }
  | some .returned => none
  | none => none

/-- The transition function: `none` when the action is not enabled. -/
def step (w : MState) : Action → Option MState
  | .loop => startStep w
  | .ret s err => retStep w s err
  | .recv => recvStep w
  | .stop i => stopStep w i

/-- Run a schedule from a state. -/
def exec (w : MState) : List Action → Option MState
  | [] => some w
  | a :: as =>
    match step w a with
    | none => none
    | some w' => exec w' as

/-- A write `f[i] = v` to the slice shared with `m.Filters`, by the
communicator inside its call (line 62 passes `m.Filters...`, which hands over
the slice itself) or by the caller that passed `fs...` to `NewMonitor`
(line 33 stores it uncopied). An index out of range panics: the step is then
not enabled. The length of the slice held in `m.Filters` cannot change. -/
def writeStep (w : MState) (i : Nat) (v : String) : Option MState :=
  if i < w.Filters.length then some { w with Filters := w.Filters.set i v } else none

/-- A step of the monitor (`sys`) or a write to the slice shared with
`Filters` by the communicator or the caller (`write`). -/
inductive EnvAction where
  /-- A step of `start`, `Stop`, the communicator's return or the consumer. -/
  | sys (a : Action)
  /-- The assignment `f[i] = v` on the slice shared with `m.Filters`. -/
  | write (i : Nat) (v : String)
deriving DecidableEq, Repr

/-- The transition function of the monitor with its environment. -/
def stepEnv (w : MState) : EnvAction → Option MState
  | .sys a => step w a
  | .write i v => writeStep w i v

/-- Run a schedule of the monitor with its environment from a state. -/
def execEnv (w : MState) : List EnvAction → Option MState
  | [] => some w
  | a :: as =>
    match stepEnv w a with
    | none => none
    | some w' => execEnv w' as

/-- The result the loop is blocked sending, if any. -/
def pending : LoopPc → List StatsResult
  | .send r => [r]
  | _ => []

/-- The number of `Comm.Stats` calls in flight. -/
def inflight : LoopPc → Nat
  | .inStats => 1
  | _ => 0

/-- Lines 63-66: the `StatsResult` built from what `Comm.Stats` returned. -/
def wrap (r : StatsReturn) : StatsResult := { stats := r.1, error := r.2 }

/-- Some call to `Stop` has returned. -/
def stopReturned (w : MState) : Bool := w.stoppers.contains .returned

/-- The loop has read `stopped = true` on its current iteration. -/
def readTrue : LoopPc → Bool
  | .unlock true => true
  | .test true => true
  | .exited => true
  | _ => false

/-- The loop is on its way to closing `Stream`: it is at the top of the
loop or has read `stopped = true`. -/
def draining : LoopPc → Bool
  | .lock => true
  | .read => true
  | .unlock true => true
  | .test true => true
  | .exited => true
  | _ => false

/-! ## Predicates and measures on states -/

/-- The facts that hold in every state reachable from `NewMonitor fs k`. -/
structure Inv (fs : List String) (w : MState) : Prop where
  Filters : w.Filters = fs
  calls : ∀ c ∈ w.calls, c = fs
  fifo : w.received ++ pending w.loop = w.returns.map wrap
  count : w.calls.length = w.returns.length + inflight w.loop
  closed : w.closed = decide (w.loop = .exited)
  closes : w.closes = if w.loop = .exited then 1 else 0
  flag : readTrue w.loop = true → w.stopped = true
  ret : ∀ p ∈ w.stoppers, (p = .unlock ∨ p = .returned) → w.stopped = true
  mu : w.mu = true →
    (w.loop = .read ∨ ∃ b, w.loop = .unlock b) ∨ ∃ p ∈ w.stoppers, p = .set ∨ p = .unlock

/-- The logs only grow and the flag, once set, stays set. -/
structure Grows (w w' : MState) : Prop where
  returns : ∃ e, w'.returns = w.returns ++ e
  received : ∃ e, w'.received = w.received ++ e
  calls : ∃ e, w'.calls = w.calls ++ e
  stopped : w.stopped = true → w'.stopped = true
  closes : w.closes ≤ w'.closes

/-- The sends the loop can still complete once the flag is set: one when
it has passed the flag read with `stopped = false` on this iteration. -/
def sendsLeft : LoopPc → Nat
  | .unlock false => 1
  | .test false => 1
  | .inStats => 1
  | .send _ => 1
  | _ => 0

/-- The `Comm.Stats` calls the loop can still start once the flag is set. -/
def callsLeft : LoopPc → Nat
  | .unlock false => 1
  | .test false => 1
  | _ => 0

/-- The steps the loop still takes before it exits once the flag is set. -/
def loopLeft : LoopPc → Nat
  | .lock => 4
  | .read => 3
  | .unlock true => 2
  | .test true => 1
  | .exited => 0
  | .unlock false => 8
  | .test false => 7
  | .inStats => 6
  | .send _ => 5

/-- The steps a caller of `Stop` still takes before its call has returned. -/
def stopLeft : StopPc → Nat
  | .idle => 4
  | .lock => 3
  | .set => 2
  | .unlock => 1
  | .returned => 0

/-- The steps the whole system can still take once the flag is set. -/
def stepsLeft (w : MState) : Nat := loopLeft w.loop + (w.stoppers.map stopLeft).sum

/-- What one step does to the potentials when the flag is set. -/
structure Spent (w w' : MState) : Prop where
  stopped : w'.stopped = true
  sends : w'.received.length + sendsLeft w'.loop = w.received.length + sendsLeft w.loop
  calls : w'.calls.length + callsLeft w'.loop = w.calls.length + callsLeft w.loop
  steps : stepsLeft w' + 1 = stepsLeft w

/-- The schedule of one poll cycle that returns `r`: lock, read, unlock, call,
return, send. -/
def pollCycle (r : StatsReturn) : List Action :=
  [.loop, .loop, .loop, .loop, .ret r.1 r.2, .recv]

/-- The schedule of consecutive poll cycles returning `rs` in turn. -/
def pollCycles : List StatsReturn → List Action
  | [] => []
  | r :: rs => pollCycle r ++ pollCycles rs

/-- The schedule of one complete call of `Stop` by caller `i`. -/
def stopCall (i : Nat) : List Action := [.stop i, .stop i, .stop i, .stop i]

/-- The schedule of the head of one loop iteration, lines 51 to 58 or 62:
lock, read, unlock, then close `Stream` or call `Comm.Stats`. -/
def loopHead : List Action := [.loop, .loop, .loop, .loop]

/-! ## Concrete data for the scenarios -/

/-- A snapshot with the given container identifier and cpu percentage. -/
def snapshot (id cpu : String) : Stats :=
  { containerID := id, containerName := id, memory := { raw := "1MiB / 1GiB", percent := "0.1%" },
    cpu := cpu, transfer := { network := "0B / 0B", block := "0B / 0B" }, pids := 1 }

/-- The four returns of the scenario: one snapshot, two snapshots, a failure,
an empty slice. -/
def scenarioReturns : List StatsReturn :=
  [ (some [snapshot "a1" "10%"], none),
    (some [snapshot "a1" "12%", snapshot "b2" "1%"], none),
    (none, some "docker: exit status 1"),
    (some [], none) ]

/-- The schedule of the scenario: four poll cycles, then a call of `Stop`,
then the loop observes the flag and closes `Stream`. -/
def scenario : List Action := pollCycles scenarioReturns ++ stopCall 0 ++ loopHead

/-- The state the scenario ends in. -/
def scenarioEnd : MState :=
  { closed := true, received := scenarioReturns.map wrap, Filters := ["name=web"], mu := false,
    stopped := true, loop := .exited, stoppers := [.returned],
    calls := [["name=web"], ["name=web"], ["name=web"], ["name=web"]],
    returns := scenarioReturns, closes := 1 }

/-- The state with the first `Comm.Stats` call in flight and `Stop` not yet
called. -/
def firstCallInFlight : MState :=
  { closed := false, received := [], Filters := ["name=web"], mu := false, stopped := false,
    loop := .inStats, stoppers := [.idle], calls := [["name=web"]], returns := [], closes := 0 }

/-- The schedule on which the communicator, inside its first call, assigns
`f[0] = "name=db"` to the slice it was given, returns, and is called again. -/
def overwritingCall : List EnvAction :=
  loopHead.map .sys ++ [.write 0 "name=db", .sys (.ret (some []) none), .sys .recv] ++
    loopHead.map .sys

/-- The state the schedule `overwritingCall` ends in: the second call is in
flight and has received the overwritten list. -/
def overwrittenEnd : MState :=
  { closed := false, received := [{ stats := some [], error := none }],
    Filters := ["name=db"], mu := false, stopped := false, loop := .inStats, stoppers := [],
    calls := [["name=web"], ["name=db"]], returns := [(some [], none)], closes := 0 }

/-- The state after two poll cycles: the first returned a nil slice and a nil
error, the second a slice together with an error. -/
def unconventionalEnd : MState :=
  { closed := false,
    received := [{ stats := none, error := none },
                 { stats := some [snapshot "a1" "10%"], error := some "partial" }],
    Filters := [], mu := false, stopped := false, loop := .lock, stoppers := [],
    calls := [[], []],
    returns := [(none, none), (some [snapshot "a1" "10%"], some "partial")], closes := 0 }

/-- The lines of the output that `CliCommunicator.Stats` decodes: the pieces
of `strings.Split` that are not empty, in order. -/
def nonEmptyLines (out : List Byte) : List (List Byte) :=
  (splitLines out).filter (fun con => con.length ≠ 0)

/-- A decoder for the scenarios: the line `{}` decodes, every other line
fails. -/
def toyUnmarshal (con : List Byte) : Except GoError Stats :=
  if con = [123, 125] then .ok (snapshot "a1" "10%") else .error "invalid character"

/-- A command runner for the scenarios: it prints the bytes given. -/
def toyRun (out : List Byte) : String → List String → Except GoError (List Byte) :=
  fun _ _ => .ok out

/-- The communicator `DefaultCommunicator` without its format string. -/
def toyCli : CliCommunicator :=
  { DockerPath := "/usr/bin/docker", Command := ["stats", "--no-stream"] }

/-- The schedule on which `Stop` is called and returns while the first
`Comm.Stats` call is in flight, and the call then returns one snapshot. -/
def stopDuringCall : List Action :=
  loopHead ++ stopCall 0 ++ [.ret (some [snapshot "a1" "10%"]) none]

/-- The state in which `Stop` has returned while the first `Comm.Stats` call
was in flight, the call has returned and the loop is blocked on the send. -/
def blockedOnSend : MState :=
  { closed := false, received := [], Filters := ["name=web"], mu := false, stopped := true,
    loop := .send { stats := some [snapshot "a1" "10%"], error := none },
    stoppers := [.returned], calls := [["name=web"]],
    returns := [(some [snapshot "a1" "10%"], none)], closes := 0 }

/-- The state after the one send that may follow the return of `Stop`. -/
def sentAfterStop : MState :=
  { blockedOnSend with
    received := [{ stats := some [snapshot "a1" "10%"], error := none }], loop := .lock }

/-- The state after the pending result has been received and the loop has
observed the flag: `Stream` is closed and `start` has returned. -/
def closedAfterStop : MState :=
  { sentAfterStop with closed := true, closes := 1, loop := .exited }

/-! ## Invariants of the monitor -/

theorem mem_set_of_ne {α : Type} (l : List α) (i : Nat) (p q x : α)
    (hi : l[i]? = some p) (hq : q ∈ l) (hne : q ≠ p) : q ∈ l.set i x := by
  induction l generalizing i with
  | nil => cases hq
  | cons a t ih =>
    cases i with
    | zero =>
      simp at hi
      subst hi
      simp only [List.set_cons_zero, List.mem_cons]
      rcases List.mem_cons.mp hq with h | h
      · exact absurd h hne
      · exact Or.inr h
    | succ n =>
      simp at hi
      simp only [List.set_cons_succ, List.mem_cons]
      rcases List.mem_cons.mp hq with h | h
      · exact Or.inl h
      · exact Or.inr (ih n hi h)

theorem mem_set_self {α : Type} (l : List α) (i : Nat) (p x : α)
    (hi : l[i]? = some p) : x ∈ l.set i x := by
  induction l generalizing i with
  | nil => simp at hi
  | cons a t ih =>
    cases i with
    | zero => simp
    | succ n =>
      simp at hi
      simp only [List.set_cons_succ, List.mem_cons]
      exact Or.inr (ih n hi)

theorem inv_init (fs : List String) (k : Nat) : Inv fs (NewMonitor fs k) := by
  refine ⟨rfl, ?_, rfl, rfl, rfl, rfl, ?_, ?_, ?_⟩
  · intro c hc; cases hc
  · intro h; cases h
  · intro p hp h
    have := List.eq_of_mem_replicate hp
    subst this
    rcases h with h | h <;> cases h
  · intro h; cases h

theorem inv_loopStep {fs : List String} {w w' : MState} (hI : Inv fs w)
    (h : startStep w = some w') : Inv fs w' := by
  obtain ⟨h1, h2, h3, h4, h5, h6, h7, h8, h9⟩ := hI
  unfold startStep at h
  split at h
  · split at h
    · cases h
    · cases h
      rename_i hl hmu
      rw [hl] at h3 h4 h5 h6 h7 h9
      refine ⟨h1, h2, ?_, ?_, ?_, ?_, ?_, h8, ?_⟩ <;>
        simp_all [pending, inflight, readTrue]
  · cases h
    rename_i hl
    rw [hl] at h3 h4 h5 h6 h7 h9
    refine ⟨h1, h2, ?_, ?_, ?_, ?_, ?_, h8, ?_⟩ <;>
      simp_all [pending, inflight, readTrue]
    intro hb
    cases hs : w.stopped <;> simp_all [readTrue]
  · cases h
    rename_i b hl
    rw [hl] at h3 h4 h5 h6 h7 h9
    cases b <;>
    refine ⟨h1, h2, ?_, ?_, ?_, ?_, ?_, h8, ?_⟩ <;>
      simp_all [pending, inflight, readTrue]
  · split at h
    · cases h
    · cases h
      rename_i hl _
      rw [hl] at h3 h4 h5 h6 h7 h9
      refine ⟨h1, h2, ?_, ?_, ?_, ?_, ?_, h8, ?_⟩ <;>
        simp_all [pending, inflight, readTrue]
  · cases h
    rename_i hl
    rw [hl] at h3 h4 h5 h6 h7 h9
    refine ⟨h1, ?_, ?_, ?_, ?_, ?_, ?_, h8, ?_⟩ <;>
      simp_all [pending, inflight, readTrue]
    rintro c (hc | hc)
    · exact h2 c hc
    · exact hc
  · cases h
  · cases h
  · cases h

theorem inv_retStep {fs : List String} {w w' : MState} {s : Slice Stats}
    {err : Option GoError} (hI : Inv fs w) (h : retStep w s err = some w') : Inv fs w' := by
  obtain ⟨h1, h2, h3, h4, h5, h6, h7, h8, h9⟩ := hI
  unfold retStep at h
  split at h
  · cases h
    rename_i hl
    rw [hl] at h3 h4 h5 h6 h7 h9
    refine ⟨h1, h2, ?_, ?_, ?_, ?_, ?_, h8, ?_⟩ <;>
      simp_all [pending, inflight, readTrue, wrap]
  · cases h

theorem inv_recvStep {fs : List String} {w w' : MState} (hI : Inv fs w)
    (h : recvStep w = some w') : Inv fs w' := by
  obtain ⟨h1, h2, h3, h4, h5, h6, h7, h8, h9⟩ := hI
  unfold recvStep at h
  split at h
  · split at h
    · cases h
    · cases h
      rename_i r hl _
      rw [hl] at h3 h4 h5 h6 h7 h9
      refine ⟨h1, h2, ?_, ?_, ?_, ?_, ?_, h8, ?_⟩ <;>
        simp_all [pending, inflight, readTrue, wrap]
  · cases h

theorem inv_stopStep {fs : List String} {w w' : MState} {i : Nat} (hI : Inv fs w)
    (h : stopStep w i = some w') : Inv fs w' := by
  obtain ⟨h1, h2, h3, h4, h5, h6, h7, h8, h9⟩ := hI
  unfold stopStep at h
  split at h
  · cases h
    rename_i hi
    refine ⟨h1, h2, h3, h4, h5, h6, h7, ?_, ?_⟩
    · intro p hp hpc
      rcases List.mem_or_eq_of_mem_set hp with hp | hp
      · exact h8 p hp hpc
      · subst hp; rcases hpc with hpc | hpc <;> cases hpc
    · intro hmu
      rcases h9 hmu with hl | ⟨p, hp, hpc⟩
      · exact Or.inl hl
      · refine Or.inr ⟨p, mem_set_of_ne _ i _ p _ hi hp ?_, hpc⟩
        rintro rfl
        rcases hpc with hpc | hpc <;> cases hpc
  · split at h
    · cases h
    · cases h
      rename_i hi hmu
      refine ⟨h1, h2, h3, h4, h5, h6, h7, ?_, ?_⟩
      · intro p hp hpc
        rcases List.mem_or_eq_of_mem_set hp with hp | hp
        · exact h8 p hp hpc
        · subst hp; rcases hpc with hpc | hpc <;> cases hpc
      · intro _
        exact Or.inr ⟨.set, mem_set_self _ i _ _ hi, Or.inl rfl⟩
  · cases h
    rename_i hi
    refine ⟨h1, h2, h3, h4, h5, h6, fun _ => rfl, fun _ _ _ => rfl, ?_⟩
    intro _
    exact Or.inr ⟨.unlock, mem_set_self _ i _ _ hi, Or.inr rfl⟩
  · cases h
    rename_i hi
    refine ⟨h1, h2, h3, h4, h5, h6, h7, ?_, ?_⟩
    · intro p hp hpc
      rcases List.mem_or_eq_of_mem_set hp with hp | hp
      · exact h8 p hp hpc
      · exact h8 .unlock (List.getElem?_mem hi) (Or.inl rfl)
    · intro hmu
      cases hmu
  · cases h
  · cases h

theorem inv_step {fs : List String} {w w' : MState} {a : Action} (hI : Inv fs w)
    (h : step w a = some w') : Inv fs w' := by
  cases a with
  | loop => exact inv_loopStep hI h
  | ret s err => exact inv_retStep hI h
  | recv => exact inv_recvStep hI h
  | stop i => exact inv_stopStep hI h

theorem inv_exec {fs : List String} {w w' : MState} {tr : List Action} (hI : Inv fs w)
    (h : exec w tr = some w') : Inv fs w' := by
  induction tr generalizing w with
  | nil => simp only [exec, Option.some.injEq] at h; exact h ▸ hI
  | cons a t ih =>
    simp only [exec] at h
    split at h
    · cases h
    · rename_i w1 hs
      exact ih (inv_step hI hs) h

theorem inv_reachable {fs : List String} {k : Nat} {w : MState} {tr : List Action}
    (h : exec (NewMonitor fs k) tr = some w) : Inv fs w :=
  inv_exec (inv_init fs k) h

/-! ## Schedules and the logs -/

theorem exec_append (w : MState) (t1 t2 : List Action) :
    exec w (t1 ++ t2) = (exec w t1).bind (fun w1 => exec w1 t2) := by
  induction t1 generalizing w with
  | nil => rfl
  | cons a t ih =>
    simp only [List.cons_append, exec]
    cases step w a with
    | none => rfl
    | some w1 => exact ih w1

theorem grows_refl (w : MState) : Grows w w :=
  ⟨⟨[], by simp⟩, ⟨[], by simp⟩, ⟨[], by simp⟩, id, Nat.le_refl _⟩

theorem grows_trans {a b c : MState} (h1 : Grows a b) (h2 : Grows b c) : Grows a c := by
  obtain ⟨⟨e1, p1⟩, ⟨e2, p2⟩, ⟨e3, p3⟩, p4, p5⟩ := h1
  obtain ⟨⟨f1, q1⟩, ⟨f2, q2⟩, ⟨f3, q3⟩, q4, q5⟩ := h2
  refine ⟨⟨e1 ++ f1, ?_⟩, ⟨e2 ++ f2, ?_⟩, ⟨e3 ++ f3, ?_⟩, fun h => q4 (p4 h), Nat.le_trans p5 q5⟩
  · rw [q1, p1, List.append_assoc]
  · rw [q2, p2, List.append_assoc]
  · rw [q3, p3, List.append_assoc]

theorem grows_step {w w' : MState} {a : Action} (h : step w a = some w') : Grows w w' := by
  cases a with
  | loop =>
    simp only [step, startStep] at h
    split at h
    · split at h
      · cases h
      · cases h
        exact ⟨⟨[], by simp⟩, ⟨[], by simp⟩, ⟨[], by simp⟩, id, Nat.le_refl _⟩
    · cases h
      exact ⟨⟨[], by simp⟩, ⟨[], by simp⟩, ⟨[], by simp⟩, id, Nat.le_refl _⟩
    · cases h
      exact ⟨⟨[], by simp⟩, ⟨[], by simp⟩, ⟨[], by simp⟩, id, Nat.le_refl _⟩
    · split at h
      · cases h
      · cases h
        exact ⟨⟨[], by simp⟩, ⟨[], by simp⟩, ⟨[], by simp⟩, id, Nat.le_succ _⟩
    · cases h
      exact ⟨⟨[], by simp⟩, ⟨[], by simp⟩, ⟨[w.Filters], rfl⟩, id, Nat.le_refl _⟩
    · cases h
    · cases h
    · cases h
  | ret s err =>
    simp only [step, retStep] at h
    split at h
    · cases h
      exact ⟨⟨[(s, err)], rfl⟩, ⟨[], by simp⟩, ⟨[], by simp⟩, id, Nat.le_refl _⟩
    · cases h
  | recv =>
    simp only [step, recvStep] at h
    split at h
    · split at h
      · cases h
      · cases h
        rename_i r _ _
        exact ⟨⟨[], by simp⟩, ⟨[r], rfl⟩, ⟨[], by simp⟩, id, Nat.le_refl _⟩
    · cases h
  | stop i =>
    simp only [step, stopStep] at h
    split at h
    · cases h
      exact ⟨⟨[], by simp⟩, ⟨[], by simp⟩, ⟨[], by simp⟩, id, Nat.le_refl _⟩
    · split at h
      · cases h
      · cases h
        exact ⟨⟨[], by simp⟩, ⟨[], by simp⟩, ⟨[], by simp⟩, id, Nat.le_refl _⟩
    · cases h
      exact ⟨⟨[], by simp⟩, ⟨[], by simp⟩, ⟨[], by simp⟩, fun _ => rfl, Nat.le_refl _⟩
    · cases h
      exact ⟨⟨[], by simp⟩, ⟨[], by simp⟩, ⟨[], by simp⟩, id, Nat.le_refl _⟩
    · cases h
    · cases h

theorem grows_exec {w w' : MState} {tr : List Action} (h : exec w tr = some w') :
    Grows w w' := by
  induction tr generalizing w with
  | nil => simp only [exec, Option.some.injEq] at h; exact h ▸ grows_refl w
  | cons a t ih =>
    simp only [exec] at h
    split at h
    · cases h
    · rename_i w1 hs
      exact grows_trans (grows_step hs) (ih h)

/-! ## Potentials -/

theorem sum_set_stopLeft (l : List StopPc) (i : Nat) (p x : StopPc)
    (hi : l[i]? = some p) (hx : stopLeft x + 1 = stopLeft p) :
    ((l.set i x).map stopLeft).sum + 1 = (l.map stopLeft).sum := by
  induction l generalizing i with
  | nil => simp at hi
  | cons a t ih =>
    cases i with
    | zero =>
      simp at hi
      subst hi
      simp only [List.set_cons_zero, List.map_cons, List.sum_cons]
      omega
    | succ n =>
      simp at hi
      simp only [List.set_cons_succ, List.map_cons, List.sum_cons]
      have := ih n hi
      omega

theorem spent_step {w w' : MState} {a : Action} (hs : w.stopped = true)
    (h : step w a = some w') : Spent w w' := by
  cases a with
  | loop =>
    simp only [step, startStep] at h
    split at h
    · split at h
      · cases h
      · cases h
        rename_i hl _
        refine ⟨hs, ?_, ?_, ?_⟩ <;> (simp [hl, sendsLeft, callsLeft, stepsLeft, loopLeft] <;> omega)
    · cases h
      rename_i hl
      refine ⟨hs, ?_, ?_, ?_⟩ <;> (simp [hl, hs, sendsLeft, callsLeft, stepsLeft, loopLeft] <;> omega)
    · cases h
      rename_i b hl
      cases b <;> refine ⟨hs, ?_, ?_, ?_⟩ <;>
        (simp [hl, sendsLeft, callsLeft, stepsLeft, loopLeft] <;> omega)
    · split at h
      · cases h
      · cases h
        rename_i hl _
        refine ⟨hs, ?_, ?_, ?_⟩ <;>
          (simp [hl, sendsLeft, callsLeft, stepsLeft, loopLeft] <;> omega)
    · cases h
      rename_i hl
      refine ⟨hs, ?_, ?_, ?_⟩ <;> (simp [hl, sendsLeft, callsLeft, stepsLeft, loopLeft] <;> omega)
    · cases h
    · cases h
    · cases h
  | ret s err =>
    simp only [step, retStep] at h
    split at h
    · cases h
      rename_i hl
      refine ⟨hs, ?_, ?_, ?_⟩ <;> (simp [hl, sendsLeft, callsLeft, stepsLeft, loopLeft] <;> omega)
    · cases h
  | recv =>
    simp only [step, recvStep] at h
    split at h
    · split at h
      · cases h
      · cases h
        rename_i r hl _
        refine ⟨hs, ?_, ?_, ?_⟩ <;>
          (simp [hl, sendsLeft, callsLeft, stepsLeft, loopLeft] <;> omega)
    · cases h
  | stop i =>
    simp only [step, stopStep] at h
    split at h
    · cases h
      rename_i hi
      refine ⟨hs, rfl, rfl, ?_⟩
      have := sum_set_stopLeft w.stoppers i _ .lock hi rfl
      simp only [stepsLeft]; omega
    · split at h
      · cases h
      · cases h
        rename_i hi _
        refine ⟨hs, rfl, rfl, ?_⟩
        have := sum_set_stopLeft w.stoppers i _ .set hi rfl
        simp only [stepsLeft]; omega
    · cases h
      rename_i hi
      refine ⟨rfl, rfl, rfl, ?_⟩
      have := sum_set_stopLeft w.stoppers i _ .unlock hi rfl
      simp only [stepsLeft]; omega
    · cases h
      rename_i hi
      refine ⟨hs, rfl, rfl, ?_⟩
      have := sum_set_stopLeft w.stoppers i _ .returned hi rfl
      simp only [stepsLeft]; omega
    · cases h
    · cases h

theorem spent_exec {w w' : MState} {tr : List Action} (hs : w.stopped = true)
    (h : exec w tr = some w') :
    w'.stopped = true ∧
    w'.received.length + sendsLeft w'.loop = w.received.length + sendsLeft w.loop ∧
    w'.calls.length + callsLeft w'.loop = w.calls.length + callsLeft w.loop ∧
    tr.length + stepsLeft w' = stepsLeft w := by
  induction tr generalizing w with
  | nil =>
    simp only [exec, Option.some.injEq] at h
    subst h
    exact ⟨hs, rfl, rfl, by simp⟩
  | cons a t ih =>
    simp only [exec] at h
    split at h
    · cases h
    · rename_i w1 h1
      obtain ⟨p1, p2, p3, p4⟩ := spent_step hs h1
      obtain ⟨q1, q2, q3, q4⟩ := ih p1 h
      refine ⟨q1, by omega, by omega, ?_⟩
      simp only [List.length_cons]
      omega

/-! ## Progress -/

theorem progress {fs : List String} {w : MState} (hI : Inv fs w) (hl : w.loop ≠ .exited) :
    (∃ w', step w .loop = some w') ∨
    (w.loop = .inStats ∧ ∀ s err, ∃ w', step w (.ret s err) = some w') ∨
    ((∃ r, w.loop = .send r) ∧ ∃ w', step w .recv = some w') ∨
    (w.loop = .lock ∧ w.mu = true ∧ ∃ i w', step w (.stop i) = some w') := by
  cases hpc : w.loop with
  | lock =>
    cases hmu : w.mu with
    | false => exact Or.inl ⟨_, by simp [step, startStep, hpc, hmu]; rfl⟩
    | true =>
      rcases hI.mu hmu with h | ⟨p, hp, hset⟩
      · rcases h with h | ⟨b, h⟩ <;> rw [hpc] at h <;> cases h
      · obtain ⟨i, hi⟩ := List.mem_iff_getElem?.mp hp
        refine Or.inr (Or.inr (Or.inr ⟨rfl, rfl, i, ?_⟩))
        rcases hset with rfl | rfl
        · exact ⟨_, by simp [step, stopStep, hi]; rfl⟩
        · exact ⟨_, by simp [step, stopStep, hi]; rfl⟩
  | read => exact Or.inl ⟨_, by simp [step, startStep, hpc]; rfl⟩
  | unlock b => exact Or.inl ⟨_, by simp [step, startStep, hpc]; rfl⟩
  | test b =>
    have hc : w.closed = false := by rw [hI.closed, hpc]; rfl
    cases b
    · exact Or.inl ⟨_, by simp [step, startStep, hpc]; rfl⟩
    · exact Or.inl ⟨_, by simp [step, startStep, hpc, hc]; rfl⟩
  | inStats =>
    exact Or.inr (Or.inl ⟨rfl, fun s err => ⟨_, by simp [step, retStep, hpc]; rfl⟩⟩)
  | send r =>
    have hc : w.closed = false := by rw [hI.closed, hpc]; rfl
    exact Or.inr (Or.inr (Or.inl ⟨⟨r, rfl⟩, _, by simp [step, recvStep, hpc, hc]; rfl⟩))
  | exited => exact absurd hpc hl

theorem progress_some {fs : List String} {w : MState} (hI : Inv fs w)
    (hl : w.loop ≠ .exited) : ∃ a w', step w a = some w' := by
  rcases progress hI hl with ⟨w', h⟩ | ⟨_, h⟩ | ⟨_, w', h⟩ | ⟨_, _, i, w', h⟩
  · exact ⟨_, w', h⟩
  · obtain ⟨w', h⟩ := h none none
    exact ⟨_, w', h⟩
  · exact ⟨_, w', h⟩
  · exact ⟨_, w', h⟩

theorem closes_within {fs : List String} (n : Nat) :
    ∀ w : MState, Inv fs w → w.stopped = true → stepsLeft w ≤ n →
      ∃ tr w', exec w tr = some w' ∧ w'.loop = .exited ∧ w'.closed = true := by
  induction n with
  | zero =>
    intro w hI hs hn
    by_cases hl : w.loop = .exited
    · exact ⟨[], w, rfl, hl, by rw [hI.closed, hl]; rfl⟩
    · obtain ⟨a, w1, h1⟩ := progress_some hI hl
      have := (spent_step hs h1).steps
      omega
  | succ n ih =>
    intro w hI hs hn
    by_cases hl : w.loop = .exited
    · exact ⟨[], w, rfl, hl, by rw [hI.closed, hl]; rfl⟩
    · obtain ⟨a, w1, h1⟩ := progress_some hI hl
      have hsp := spent_step hs h1
      obtain ⟨tr, w2, h2, h3, h4⟩ := ih w1 (inv_step hI h1) hsp.stopped (by have := hsp.steps; omega)
      exact ⟨a :: tr, w2, by simp [exec, h1, h2], h3, h4⟩

theorem stopReturned_stopped {fs : List String} {w : MState} (hI : Inv fs w)
    (h : stopReturned w = true) : w.stopped = true := by
  have hm : StopPc.returned ∈ w.stoppers := by simpa [stopReturned] using h
  exact hI.ret .returned hm (Or.inr rfl)

/-! ## Poll cycles -/

theorem exec_pollCycle (w : MState) (r : StatsReturn) (hl : w.loop = .lock)
    (hmu : w.mu = false) (hs : w.stopped = false) (hc : w.closed = false) :
    exec w (pollCycle r) = some { w with calls := w.calls ++ [w.Filters],
                                         returns := w.returns ++ [r],
                                         received := w.received ++ [wrap r] } := by
  cases w
  simp only at hl hmu hs hc
  subst hl hmu hs hc
  rfl

theorem exec_pollCycles (rs : List StatsReturn) (w : MState) (hl : w.loop = .lock)
    (hmu : w.mu = false) (hs : w.stopped = false) (hc : w.closed = false) :
    exec w (pollCycles rs) = some { w with calls := w.calls ++ List.replicate rs.length w.Filters,
                                           returns := w.returns ++ rs,
                                           received := w.received ++ rs.map wrap } := by
  induction rs generalizing w with
  | nil => simp [pollCycles, exec]
  | cons r rs ih =>
    simp only [pollCycles, exec_append, exec_pollCycle w r hl hmu hs hc, Option.bind]
    have h2 := ih { w with calls := w.calls ++ [w.Filters], returns := w.returns ++ [r],
                           received := w.received ++ [wrap r] } hl hmu hs hc
    simp only [h2, Option.some.injEq, List.length_cons, List.replicate_succ, List.map_cons,
      List.append_assoc, List.singleton_append]

/-! ## The claims -/

/-- C3: in every state reachable from `NewMonitor`, the values received from
`Stream` followed by the result whose send is pending (if any) are, in order,
exactly the `StatsResult`s built from what the `Comm.Stats` calls returned:
one per poll cycle, none dropped, duplicated or reordered; when no send is
pending the received values are exactly those results. Moreover for every
sequence `rs` of returns the schedule of `rs.length` poll cycles runs and
delivers exactly the results carrying `rs`, in order. -/
theorem C3_results_in_poll_order (fs : List String) (k : Nat) (tr : List Action) (w : MState)
    (h : exec (NewMonitor fs k) tr = some w) :
    w.received ++ pending w.loop = w.returns.map wrap ∧
    (pending w.loop = [] → w.received = w.returns.map wrap) ∧
    w.received = (w.returns.map wrap).take w.received.length ∧
    w.returns.length ≤ w.received.length + 1 ∧
    (∀ rs : List StatsReturn, ∃ w', exec (NewMonitor fs k) (pollCycles rs) = some w' ∧
      w'.returns = rs ∧ w'.received = rs.map wrap ∧ w'.calls.length = rs.length) := by
  have hI := inv_reachable h
  have hf := hI.fifo
  refine ⟨hf, ?_, ?_, ?_, ?_⟩
  · intro hp
    rw [hp, List.append_nil] at hf
    exact hf
  · rw [← hf, List.take_left]
  · have := congrArg List.length hf
    simp only [List.length_append, List.length_map] at this
    have hp : (pending w.loop).length ≤ 1 := by
      cases w.loop <;> simp [pending]
    omega
  · intro rs
    refine ⟨_, exec_pollCycles rs (NewMonitor fs k) rfl rfl rfl rfl, ?_, ?_, ?_⟩ <;>
      simp [NewMonitor]

/-- The scenario of the specification: one snapshot, two snapshots, a failure
and an empty slice are received as four results in that order, and `Stream`
is closed once `Stop` has been called. -/
theorem C3_scenario_witness :
    exec (NewMonitor ["name=web"] 1) scenario = some scenarioEnd ∧
    scenarioEnd.closed = true ∧
    scenarioEnd.received =
      [ { stats := some [snapshot "a1" "10%"], error := none },
        { stats := some [snapshot "a1" "12%", snapshot "b2" "1%"], error := none },
        { stats := none, error := some "docker: exit status 1" },
        { stats := some [], error := none } ] ∧
    scenarioEnd.received ++ pending scenarioEnd.loop = scenarioEnd.returns.map wrap :=
  ⟨rfl, rfl, rfl, (C3_results_in_poll_order ["name=web"] 1 scenario scenarioEnd rfl).1⟩

/-- C2: in no reachable state is `Stream` closed while a `Comm.Stats` call is
in flight or a returned result is still unsent: when `Stream` is closed the
loop has exited and every return has been received. And from a reachable
state with a call in flight, whatever happens next (calls of `Stop`
included), when `Stream` is closed the result of that cycle has been
received before. -/
theorem C2_no_close_while_result_pending (fs : List String) (k : Nat) (tr : List Action)
    (w : MState) (h : exec (NewMonitor fs k) tr = some w) :
    (w.closed = true → w.loop = .exited ∧ pending w.loop = [] ∧ inflight w.loop = 0 ∧
      w.received = w.returns.map wrap ∧ w.returns.length = w.calls.length) ∧
    (∀ r, w.loop = .send r → w.closed = false) ∧
    (w.loop = .inStats → w.closed = false ∧
      ∀ tr2 w2, exec w tr2 = some w2 → w2.closed = true →
        ∃ r rest, w2.returns = w.returns ++ r :: rest ∧
          w2.received = w.received ++ wrap r :: rest.map wrap) := by
  have hI := inv_reachable h
  have closedExit : ∀ {v : MState}, Inv fs v → v.closed = true → v.loop = .exited := by
    intro v hv hc
    rw [hv.closed] at hc
    exact of_decide_eq_true hc
  refine ⟨?_, ?_, ?_⟩
  · intro hc
    have hl := closedExit hI hc
    have hf := hI.fifo
    have hn := hI.count
    rw [hl] at hf hn
    simp only [pending, inflight, List.append_nil, Nat.add_zero] at hf hn
    exact ⟨hl, by rw [hl]; rfl, by rw [hl]; rfl, hf, hn.symm⟩
  · intro r hl
    rw [hI.closed, hl]
    rfl
  · intro hl
    refine ⟨by rw [hI.closed, hl]; rfl, ?_⟩
    intro tr2 w2 h2 hc2
    have hI2 := inv_exec hI h2
    have hl2 := closedExit hI2 hc2
    obtain ⟨⟨e, he⟩, _, ⟨e3, he3⟩, _, _⟩ := grows_exec h2
    have hf := hI.fifo
    have hn := hI.count
    have hf2 := hI2.fifo
    have hn2 := hI2.count
    rw [hl] at hf hn
    rw [hl2] at hf2 hn2
    simp only [pending, inflight, List.append_nil, Nat.add_zero] at hf hn hf2 hn2
    rw [he, he3] at hn2
    simp only [List.length_append] at hn2
    cases e with
    | nil => simp only [List.length_nil] at hn2; omega
    | cons r rest =>
      refine ⟨r, rest, he, ?_⟩
      rw [hf2, he, hf, List.map_append, List.map_cons]

/-- When `Stop` is called while the first `Comm.Stats` call is in flight, the
result of that call is received before `Stream` is closed. -/
theorem C2_stop_in_flight_witness :
    exec (NewMonitor ["name=web"] 1) loopHead = some firstCallInFlight ∧
    firstCallInFlight.closed = false ∧
    (∀ tr2 w2, exec firstCallInFlight (stopCall 0 ++ tr2) = some w2 → w2.closed = true →
      ∃ r rest, w2.returns = firstCallInFlight.returns ++ r :: rest ∧
        w2.received = firstCallInFlight.received ++ wrap r :: rest.map wrap) :=
  ⟨rfl, rfl, fun tr2 =>
    ((C2_no_close_while_result_pending ["name=web"] 1 loopHead firstCallInFlight rfl).2.2 rfl).2
      (stopCall 0 ++ tr2)⟩

/-- C7: the doc comment of `Monitor` (lines 18-19) says that each result sent
contains either an error or a slice. The loop sends the pair as `Comm.Stats`
returned it, with no check: a communicator that returns a nil slice with a
nil error, and then a slice together with an error, makes it send a result
with neither field populated and then one with both. -/
theorem C7_both_or_neither_is_sent :
    exec (NewMonitor [] 0) (pollCycles [(none, none), (some [snapshot "a1" "10%"], some "partial")])
      = some unconventionalEnd ∧
    unconventionalEnd.received =
      [{ stats := none, error := none },
       { stats := some [snapshot "a1" "10%"], error := some "partial" }] ∧
    StatsResult.exactlyOne { stats := none, error := none } = false ∧
    StatsResult.exactlyOne { stats := some [snapshot "a1" "10%"], error := some "partial" } = false :=
  ⟨rfl, rfl, rfl, rfl⟩

/-! ## The CLI communicator -/

theorem decodeLines_ok (u : List Byte → Except GoError Stats) (lines : List (List Byte))
    (acc : List Stats)
    (h : ∀ con ∈ lines, con.length ≠ 0 → ∃ s, u con = .ok s) :
    ∃ ss, decodeLines u lines acc = (some (acc ++ ss), none) ∧
      ss.map Except.ok = (lines.filter (fun con => con.length ≠ 0)).map u := by
  induction lines generalizing acc with
  | nil => exact ⟨[], by simp [decodeLines], rfl⟩
  | cons con rest ih =>
    have hrest : ∀ c ∈ rest, c.length ≠ 0 → ∃ s, u c = .ok s :=
      fun c hc => h c (List.mem_cons_of_mem _ hc)
    by_cases hlen : con.length = 0
    · obtain ⟨ss, h1, h2⟩ := ih acc hrest
      refine ⟨ss, ?_, ?_⟩
      · simp only [decodeLines, hlen, if_true]; exact h1
      · simp only [List.filter_cons, hlen, ne_eq, not_true_eq_false, decide_False]
        exact h2
    · obtain ⟨s, hs⟩ := h con (List.mem_cons_self _ _) hlen
      obtain ⟨ss, h1, h2⟩ := ih (acc ++ [s]) hrest
      refine ⟨s :: ss, ?_, ?_⟩
      · simp only [decodeLines, hlen, if_false, hs]
        rw [h1]; simp
      · simp only [List.filter_cons, hlen, ne_eq, not_false_eq_true, decide_True, if_true,
          List.map_cons, hs]
        rw [h2]

theorem decodeLines_error (u : List Byte → Except GoError Stats) (lines : List (List Byte))
    (acc : List Stats)
    (h : ∃ con ∈ lines, con.length ≠ 0 ∧ ∃ e, u con = .error e) :
    ∃ e, decodeLines u lines acc = (none, some e) ∧
      ∃ con ∈ lines, con.length ≠ 0 ∧ u con = .error e := by
  induction lines generalizing acc with
  | nil => obtain ⟨c, hc, _⟩ := h; cases hc
  | cons con rest ih =>
    have tail : (∃ c ∈ rest, c.length ≠ 0 ∧ ∃ e, u c = .error e) → ∀ acc2,
        ∃ e, decodeLines u rest acc2 = (none, some e) ∧
          ∃ c ∈ con :: rest, c.length ≠ 0 ∧ u c = .error e := by
      intro hr acc2
      obtain ⟨e, h1, c, hc, h2⟩ := ih acc2 hr
      exact ⟨e, h1, c, List.mem_cons_of_mem _ hc, h2⟩
    by_cases hlen : con.length = 0
    · have hr : ∃ c ∈ rest, c.length ≠ 0 ∧ ∃ e, u c = .error e := by
        obtain ⟨c, hc, hne, he⟩ := h
        rcases List.mem_cons.mp hc with rfl | hc
        · exact absurd hlen hne
        · exact ⟨c, hc, hne, he⟩
      simp only [decodeLines, hlen, if_true]
      exact tail hr acc
    · cases hu : u con with
      | error e =>
        refine ⟨e, ?_, con, List.mem_cons_self _ _, hlen, hu⟩
        simp only [decodeLines, hlen, if_false, hu]
      | ok s =>
        have hr : ∃ c ∈ rest, c.length ≠ 0 ∧ ∃ e, u c = .error e := by
          obtain ⟨c, hc, hne, e, he⟩ := h
          rcases List.mem_cons.mp hc with rfl | hc
          · rw [hu] at he; cases he
          · exact ⟨c, hc, hne, e, he⟩
        simp only [decodeLines, hlen, if_false, hu]
        exact tail hr (acc ++ [s])

theorem decodeLines_exactlyOne (u : List Byte → Except GoError Stats)
    (lines : List (List Byte)) (acc : List Stats) :
    (wrap (decodeLines u lines acc)).exactlyOne = true := by
  induction lines generalizing acc with
  | nil => rfl
  | cons con rest ih =>
    by_cases hlen : con.length = 0
    · simp only [decodeLines, hlen, if_true]; exact ih acc
    · cases hu : u con with
      | error e => simp only [decodeLines, hlen, if_false, hu]; rfl
      | ok s => simp only [decodeLines, hlen, if_false, hu]; exact ih (acc ++ [s])

theorem cli_exactlyOne (run : String → List String → Except GoError (List Byte))
    (u : List Byte → Except GoError Stats) (c : CliCommunicator) (fl : List String) :
    (wrap (CliCommunicator.Stats run u c fl)).exactlyOne = true := by
  unfold CliCommunicator.Stats
  cases run c.DockerPath (c.args fl) with
  | error e => rfl
  | ok out => exact decodeLines_exactlyOne u (splitLines out) []

/-! ## One poll cycle from the return of `Comm.Stats` on -/

theorem exec_ret_recv (w : MState) (s : Slice Stats) (err : Option GoError)
    (hl : w.loop = .inStats) (hc : w.closed = false) :
    exec w [.ret s err, .recv] =
      some { w with returns := w.returns ++ [(s, err)],
                    received := w.received ++ [{ stats := s, error := err }],
                    loop := .lock } := by
  cases w
  simp only at hl hc
  subst hl hc
  rfl

theorem exec_ret_recv_poll (w : MState) (s : Slice Stats) (err : Option GoError)
    (r2 : StatsReturn) (hl : w.loop = .inStats) (hc : w.closed = false)
    (hmu : w.mu = false) (hst : w.stopped = false) :
    exec w ([.ret s err, .recv] ++ pollCycle r2) =
      some { w with returns := w.returns ++ [(s, err), r2],
                    received := w.received ++ [{ stats := s, error := err }, wrap r2],
                    calls := w.calls ++ [w.Filters],
                    loop := .lock } := by
  cases w
  simp only at hl hc hmu hst
  subst hl hc hmu hst
  simp [exec, step, retStep, recvStep, startStep, pollCycle, wrap]

theorem after_ret {fs : List String} {w w2 : MState} {s : Slice Stats} {err : Option GoError}
    {tr2 : List Action} (hI : Inv fs w) (hl : w.loop = .inStats)
    (h2 : exec w (.ret s err :: tr2) = some w2) :
    (w2.loop = .exited → w2.stopped = true) ∧
    ∃ rest, w2.received ++ pending w2.loop =
      w.received ++ { stats := s, error := err } :: rest := by
  have hI2 := inv_exec hI h2
  refine ⟨fun hx => hI2.flag (by rw [hx]; rfl), ?_⟩
  simp only [exec] at h2
  split at h2
  · cases h2
  · rename_i w1 h1
    obtain ⟨⟨e, he⟩, _⟩ := grows_exec h2
    have hr1 : w1.returns = w.returns ++ [(s, err)] := by
      simp only [step, retStep, hl, Option.some.injEq] at h1
      subst h1
      rfl
    have hf := hI.fifo
    rw [hl] at hf
    simp only [pending, List.append_nil] at hf
    refine ⟨e.map wrap, ?_⟩
    rw [hI2.fifo, he, hr1, hf]
    simp [wrap]

/-- C4: from every reachable state with a `Comm.Stats` call in flight, when the
call returns a non-nil error `e` (with whatever slice `s`), the return and the
send run and leave the loop at the top of its next iteration with the result
carrying `Error = e` received and nothing else changed (`Stream` is still
open, the loop has not exited). In every continuation that result is the one
that follows what was received before, and the loop has exited only if
`stopped` was set. When `stopped` is not set and no `Stop` holds the mutex, the
loop calls `Comm.Stats` again and a following successful return is received as
the next result. -/
theorem C4_error_is_published_and_polling_continues (fs : List String) (k : Nat)
    (tr : List Action) (w : MState) (h : exec (NewMonitor fs k) tr = some w)
    (hl : w.loop = .inStats) (s : Slice Stats) (e : GoError) :
    exec w [.ret s (some e), .recv] =
      some { w with returns := w.returns ++ [(s, some e)],
                    received := w.received ++ [{ stats := s, error := some e }],
                    loop := .lock } ∧
    w.closed = false ∧
    (∀ tr2 w2, exec w (.ret s (some e) :: tr2) = some w2 →
      (w2.loop = .exited → w2.stopped = true) ∧
      ∃ rest, w2.received ++ pending w2.loop =
        w.received ++ { stats := s, error := some e } :: rest) ∧
    (w.mu = false → w.stopped = false → ∀ s2 : Slice Stats,
      exec w ([.ret s (some e), .recv] ++ pollCycle (s2, none)) =
        some { w with returns := w.returns ++ [(s, some e), (s2, none)],
                      received := w.received ++
                        [{ stats := s, error := some e }, { stats := s2, error := none }],
                      calls := w.calls ++ [w.Filters],
                      loop := .lock }) := by
  have hI := inv_reachable h
  have hc : w.closed = false := by rw [hI.closed, hl]; rfl
  refine ⟨exec_ret_recv w s (some e) hl hc, hc, ?_, ?_⟩
  · intro tr2 w2 h2
    exact after_ret hI hl h2
  · intro hmu hst s2
    exact exec_ret_recv_poll w s (some e) (s2, none) hl hc hmu hst

/-- A failure of the first call is received as the first result, and the two
snapshots of the next call as the second. -/
theorem C4_failure_then_success_witness :
    exec (NewMonitor ["name=web"] 1) loopHead = some firstCallInFlight ∧
    exec firstCallInFlight
      ([.ret none (some "docker: exit status 1"), .recv] ++
        pollCycle (some [snapshot "a1" "12%", snapshot "b2" "1%"], none)) =
      some { firstCallInFlight with
        returns := [(none, some "docker: exit status 1"),
                    (some [snapshot "a1" "12%", snapshot "b2" "1%"], none)],
        received := [{ stats := none, error := some "docker: exit status 1" },
                     { stats := some [snapshot "a1" "12%", snapshot "b2" "1%"], error := none }],
        calls := [["name=web"], ["name=web"]],
        loop := .lock } :=
  ⟨rfl, (C4_error_is_published_and_polling_continues ["name=web"] 1 loopHead firstCallInFlight
    rfl rfl none "docker: exit status 1").2.2.2 rfl rfl
      (some [snapshot "a1" "12%", snapshot "b2" "1%"])⟩

/-- C10: from every reachable state with a `Comm.Stats` call in flight, when
the call returns a slice of length 0 and a nil error, the return and the send
run and leave the loop at the top of its next iteration with a result
received whose `Stats` has length 0 and whose `Error` is nil; `Stream` stays
open. The cycle is handled like any other success: the same holds for every
returned slice, and when `stopped` is not set and no `Stop` holds the mutex
the loop goes on to its next poll cycle. -/
theorem C10_empty_success_is_published (fs : List String) (k : Nat)
    (tr : List Action) (w : MState) (h : exec (NewMonitor fs k) tr = some w)
    (hl : w.loop = .inStats) (s : Slice Stats) (hs : s.len = 0) :
    exec w [.ret s none, .recv] =
      some { w with returns := w.returns ++ [(s, none)],
                    received := w.received ++ [{ stats := s, error := none }],
                    loop := .lock } ∧
    (wrap (s, none)).stats.len = 0 ∧ (wrap (s, none)).error = none ∧
    w.closed = false ∧
    (∀ s1 : Slice Stats, exec w [.ret s1 none, .recv] =
      some { w with returns := w.returns ++ [(s1, none)],
                    received := w.received ++ [{ stats := s1, error := none }],
                    loop := .lock }) ∧
    (w.mu = false → w.stopped = false → ∀ r2 : StatsReturn,
      exec w ([.ret s none, .recv] ++ pollCycle r2) =
        some { w with returns := w.returns ++ [(s, none), r2],
                      received := w.received ++ [{ stats := s, error := none }, wrap r2],
                      calls := w.calls ++ [w.Filters],
                      loop := .lock }) := by
  have hI := inv_reachable h
  have hc : w.closed = false := by rw [hI.closed, hl]; rfl
  refine ⟨exec_ret_recv w s none hl hc, hs, rfl, hc, ?_, ?_⟩
  · intro s1
    exact exec_ret_recv w s1 none hl hc
  · intro hmu hst r2
    exact exec_ret_recv_poll w s none r2 hl hc hmu hst

/-- An empty slice returned by the first call is received as a result with an
empty slice and no error, and the loop is back at the top of the loop. -/
theorem C10_empty_slice_witness :
    exec (NewMonitor ["name=web"] 1) loopHead = some firstCallInFlight ∧
    exec firstCallInFlight [.ret (some []) none, .recv] =
      some { firstCallInFlight with
        returns := [(some [], none)],
        received := [{ stats := some [], error := none }],
        loop := .lock } :=
  ⟨rfl, (C10_empty_success_is_published ["name=web"] 1 loopHead firstCallInFlight
    rfl rfl (some []) rfl).1⟩

/-- C9: `Current` called with a `CliCommunicator` returns what its `Stats`
returns. When the command fails with `e`, that is a nil slice and `e`. When
the command prints `out`: if every non-empty line decodes, a nil error and a
non-nil slice with exactly the decoded value of each non-empty line, in line
order (so as long as the number of non-empty lines); if there is no
non-empty line, the empty non-nil slice and a nil error; if some non-empty
line fails to decode, a nil slice and the error of a line that failed. -/
theorem C9_cli_stats_one_per_line (run : String → List String → Except GoError (List Byte))
    (unmarshal : List Byte → Except GoError Stats) (c : CliCommunicator) (fl : List String) :
    Current (CliCommunicator.Stats run unmarshal c) fl = CliCommunicator.Stats run unmarshal c fl ∧
    (∀ e, run c.DockerPath (c.args fl) = .error e →
      CliCommunicator.Stats run unmarshal c fl = (none, some e)) ∧
    (∀ out, run c.DockerPath (c.args fl) = .ok out →
      ((∀ con ∈ nonEmptyLines out, ∃ st, unmarshal con = .ok st) →
        ∃ ss, CliCommunicator.Stats run unmarshal c fl = (some ss, none) ∧
          ss.map Except.ok = (nonEmptyLines out).map unmarshal ∧
          ss.length = (nonEmptyLines out).length) ∧
      (nonEmptyLines out = [] → CliCommunicator.Stats run unmarshal c fl = (some [], none)) ∧
      ((∃ con ∈ nonEmptyLines out, ∃ e, unmarshal con = .error e) →
        ∃ e, CliCommunicator.Stats run unmarshal c fl = (none, some e) ∧
          ∃ con ∈ nonEmptyLines out, unmarshal con = .error e)) := by
  refine ⟨rfl, ?_, ?_⟩
  · intro e he
    simp only [CliCommunicator.Stats, he]
  · intro out ho
    have hok : (∀ con ∈ nonEmptyLines out, ∃ st, unmarshal con = .ok st) →
        ∃ ss, CliCommunicator.Stats run unmarshal c fl = (some ss, none) ∧
          ss.map Except.ok = (nonEmptyLines out).map unmarshal ∧
          ss.length = (nonEmptyLines out).length := by
      intro hall
      have hall2 : ∀ con ∈ splitLines out, con.length ≠ 0 → ∃ st, unmarshal con = .ok st := by
        intro con hc hne
        exact hall con (List.mem_filter.mpr ⟨hc, by simpa using hne⟩)
      obtain ⟨ss, h1, h2⟩ := decodeLines_ok unmarshal (splitLines out) [] hall2
      refine ⟨ss, ?_, h2, ?_⟩
      · simp only [CliCommunicator.Stats, ho]
        rw [h1]; rfl
      · have := congrArg List.length h2
        simpa [nonEmptyLines] using this
    refine ⟨hok, ?_, ?_⟩
    · intro hnil
      obtain ⟨ss, h1, _, h3⟩ := hok (by rw [hnil]; intro con hc; cases hc)
      rw [hnil] at h3
      have : ss = [] := List.length_eq_zero.mp h3
      rw [h1, this]
    · rintro ⟨con, hc, e, he⟩
      have hc2 := List.mem_filter.mp hc
      have hne : con.length ≠ 0 := by simpa using hc2.2
      obtain ⟨e2, h1, con2, hm, hne2, h2⟩ :=
        decodeLines_error unmarshal (splitLines out) [] ⟨con, hc2.1, hne, e, he⟩
      refine ⟨e2, ?_, con2, List.mem_filter.mpr ⟨hm, by simpa using hne2⟩, h2⟩
      simp only [CliCommunicator.Stats, ho]
      exact h1

/-- Two lines that decode give two values, no line gives the empty slice, a
line that does not decode gives its error, a failing command gives its
error. -/
theorem C9_cli_witness :
    CliCommunicator.Stats (toyRun [123, 125, 10, 123, 125, 10]) toyUnmarshal toyCli ["name=web"]
      = (some [snapshot "a1" "10%", snapshot "a1" "10%"], none) ∧
    CliCommunicator.Stats (toyRun []) toyUnmarshal toyCli [] = (some [], none) ∧
    CliCommunicator.Stats (toyRun [10, 10]) toyUnmarshal toyCli [] = (some [], none) ∧
    CliCommunicator.Stats (toyRun [123, 125, 10, 120, 10]) toyUnmarshal toyCli []
      = (none, some "invalid character") ∧
    CliCommunicator.Stats (fun _ _ => .error "exit status 1") toyUnmarshal toyCli []
      = (none, some "exit status 1") ∧
    Current (CliCommunicator.Stats (toyRun []) toyUnmarshal toyCli) [] = (some [], none) :=
  ⟨by decide, by decide, by decide, by decide, by decide,
    (C9_cli_stats_one_per_line (toyRun []) toyUnmarshal toyCli []).1.trans (by decide)⟩

/-! ## After the flag is observed -/

theorem readTrue_step {w w' : MState} {a : Action} (hr : readTrue w.loop = true)
    (h : step w a = some w') : readTrue w'.loop = true := by
  cases a with
  | loop =>
    simp only [step, startStep] at h
    split at h
    · rename_i hl; rw [hl] at hr; cases hr
    · rename_i hl; rw [hl] at hr; cases hr
    · rename_i b hl
      cases h
      rw [hl] at hr
      cases b
      · cases hr
      · rfl
    · split at h
      · cases h
      · cases h; rfl
    · rename_i hl; rw [hl] at hr; cases hr
    · cases h
    · cases h
    · cases h
  | ret s err =>
    simp only [step, retStep] at h
    split at h
    · rename_i hl; rw [hl] at hr; cases hr
    · cases h
  | recv =>
    simp only [step, recvStep] at h
    split at h
    · rename_i hl; rw [hl] at hr; cases hr
    · cases h
  | stop i =>
    simp only [step, stopStep] at h
    split at h
    · cases h; exact hr
    · split at h
      · cases h
      · cases h; exact hr
    · cases h; exact hr
    · cases h; exact hr
    · cases h
    · cases h

theorem readTrue_exec {w w' : MState} {tr : List Action} (hr : readTrue w.loop = true)
    (h : exec w tr = some w') : readTrue w'.loop = true := by
  induction tr generalizing w with
  | nil => simp only [exec, Option.some.injEq] at h; exact h ▸ hr
  | cons a t ih =>
    simp only [exec] at h
    split at h
    · cases h
    · rename_i w1 h1
      exact ih (readTrue_step hr h1) h

theorem closes_step {w w' : MState} {a : Action} (h : step w a = some w') :
    w'.closes = w.closes ∨
    (a = .loop ∧ w.loop = .test true ∧ w'.closes = w.closes + 1 ∧ w'.closed = true ∧
      w'.loop = .exited) := by
  cases a with
  | loop =>
    simp only [step, startStep] at h
    split at h
    · split at h
      · cases h
      · cases h; exact Or.inl rfl
    · cases h; exact Or.inl rfl
    · cases h; exact Or.inl rfl
    · split at h
      · cases h
      · rename_i hl _
        cases h
        exact Or.inr ⟨rfl, hl, rfl, rfl, rfl⟩
    · cases h; exact Or.inl rfl
    · cases h
    · cases h
    · cases h
  | ret s err =>
    simp only [step, retStep] at h
    split at h
    · cases h; exact Or.inl rfl
    · cases h
  | recv =>
    simp only [step, recvStep] at h
    split at h
    · split at h
      · cases h
      · cases h; exact Or.inl rfl
    · cases h
  | stop i =>
    simp only [step, stopStep] at h
    split at h
    · cases h; exact Or.inl rfl
    · split at h
      · cases h
      · cases h; exact Or.inl rfl
    · cases h; exact Or.inl rfl
    · cases h; exact Or.inl rfl
    · cases h
    · cases h

theorem sendsLeft_le_one (pc : LoopPc) : sendsLeft pc ≤ 1 := by
  cases pc with
  | unlock b => cases b <;> simp [sendsLeft]
  | test b => cases b <;> simp [sendsLeft]
  | _ => simp [sendsLeft]

theorem callsLeft_le_sendsLeft (pc : LoopPc) : callsLeft pc ≤ sendsLeft pc := by
  cases pc with
  | unlock b => cases b <;> simp [sendsLeft, callsLeft]
  | test b => cases b <;> simp [sendsLeft, callsLeft]
  | _ => simp [sendsLeft, callsLeft]

theorem draining_of_sendsLeft {pc : LoopPc} (h : sendsLeft pc = 0) :
    draining pc = true ∧ inflight pc = 0 ∧ pending pc = [] ∧ loopLeft pc ≤ 4 ∧
      ∀ b, pc = .unlock b → b = true := by
  cases pc with
  | unlock b =>
    cases b
    · simp [sendsLeft] at h
    · simp [draining, inflight, pending, loopLeft]
  | test b =>
    cases b
    · simp [sendsLeft] at h
    · simp [draining, inflight, pending, loopLeft]
  | inStats => simp [sendsLeft] at h
  | send r => simp [sendsLeft] at h
  | lock => simp [draining, inflight, pending, loopLeft]
  | read => simp [draining, inflight, pending, loopLeft]
  | exited => simp [draining, inflight, pending, loopLeft]

theorem sendsLeft_of_readTrue {pc : LoopPc} (h : readTrue pc = true) : sendsLeft pc = 0 := by
  cases pc with
  | unlock b => cases b <;> simp_all [readTrue, sendsLeft]
  | test b => cases b <;> simp_all [readTrue, sendsLeft]
  | _ => simp_all [readTrue, sendsLeft]

theorem sendsLeft_of_draining {pc : LoopPc} (h : draining pc = true) : sendsLeft pc = 0 := by
  cases pc with
  | unlock b => cases b <;> simp_all [draining, sendsLeft]
  | test b => cases b <;> simp_all [draining, sendsLeft]
  | _ => simp_all [draining, sendsLeft]

theorem eq_of_append_of_length {α : Type} {l l' e : List α} (h : l' = l ++ e)
    (hlen : l'.length = l.length) : l' = l := by
  have := congrArg List.length h
  simp only [List.length_append] at this
  have he : e = [] := List.length_eq_zero.mp (by omega)
  rw [h, he, List.append_nil]

/-- Once the flag is set and the loop has no send left, nothing is called,
returned or sent any more. -/
theorem quiet_after {fs : List String} {w w' : MState} {tr : List Action} (hI : Inv fs w)
    (hs : w.stopped = true) (h0 : sendsLeft w.loop = 0) (h : exec w tr = some w') :
    w'.stopped = true ∧ sendsLeft w'.loop = 0 ∧ w'.received = w.received ∧
      w'.calls = w.calls ∧ w'.returns = w.returns := by
  obtain ⟨p1, p2, p3, _⟩ := spent_exec hs h
  obtain ⟨⟨e1, g1⟩, ⟨e2, g2⟩, ⟨e3, g3⟩, _, _⟩ := grows_exec h
  have hI2 := inv_exec hI h
  have hc := callsLeft_le_sendsLeft w.loop
  have hlen2 := congrArg List.length g2
  have hlen3 := congrArg List.length g3
  simp only [List.length_append] at hlen2 hlen3
  have hz : sendsLeft w'.loop = 0 := by omega
  have hc2 := callsLeft_le_sendsLeft w'.loop
  have hcalls : w'.calls = w.calls := eq_of_append_of_length g3 (by omega)
  refine ⟨p1, hz, eq_of_append_of_length g2 (by omega), hcalls, ?_⟩
  have n1 := hI.count
  have n2 := hI2.count
  rw [(draining_of_sendsLeft h0).2.1] at n1
  rw [(draining_of_sendsLeft hz).2.1] at n2
  rw [hcalls] at n2
  exact eq_of_append_of_length g1 (by omega)

/-- C8: in every reachable state `close(m.Stream)` has run at most once, and
exactly once precisely when the loop has exited, which is precisely when
`Stream` is closed; while `stopped` is false `Stream` is not closed. A step
closes `Stream` only as the loop step taken at `if stopped` with the local
`stopped = true` read on that iteration (the flag is then set). Once the
loop has read `stopped = true`, whatever happens next, it makes no further
`Comm.Stats` call, no call returns and nothing more is sent, and there is a
schedule on which it closes `Stream`, once. -/
theorem C8_stream_closed_once_on_stop (fs : List String) (k : Nat) (tr : List Action)
    (w : MState) (h : exec (NewMonitor fs k) tr = some w) :
    w.closes ≤ 1 ∧
    (w.closes = 1 ↔ w.loop = .exited) ∧
    (w.closed = true ↔ w.loop = .exited) ∧
    (w.stopped = false → w.closed = false ∧ w.closes = 0) ∧
    (∀ a w', step w a = some w' → w'.closes ≠ w.closes →
      a = .loop ∧ w.loop = .test true ∧ w.stopped = true ∧ w.closes = 0 ∧ w'.closes = 1 ∧
        w'.closed = true ∧ w'.loop = .exited) ∧
    (readTrue w.loop = true →
      (∀ tr2 w2, exec w tr2 = some w2 →
        readTrue w2.loop = true ∧ w2.calls = w.calls ∧ w2.returns = w.returns ∧
          w2.received = w.received ∧ w2.closes ≤ 1) ∧
      ∃ tr2 w2, exec w tr2 = some w2 ∧ w2.loop = .exited ∧ w2.closed = true ∧
        w2.closes = 1) := by
  have hI := inv_reachable h
  have hcl := hI.closes
  have hcd := hI.closed
  by_cases hx : w.loop = .exited
  · have hst : w.stopped = true := hI.flag (by rw [hx]; rfl)
    refine ⟨by rw [hcl, if_pos hx], ?_, ?_, ?_, ?_, ?_⟩
    · rw [hcl, if_pos hx]; simp [hx]
    · rw [hcd]; simp [hx]
    · intro hf; rw [hst] at hf; cases hf
    · intro a w' ha hne
      rcases closes_step ha with he | ⟨_, hl, _⟩
      · exact absurd he hne
      · rw [hx] at hl; cases hl
    · intro hr
      refine ⟨?_, [], w, rfl, hx, by rw [hcd]; simp [hx], by rw [hcl, if_pos hx]⟩
      intro tr2 w2 h2
      obtain ⟨_, _, q3, q4, q5⟩ := quiet_after hI hst (sendsLeft_of_readTrue hr) h2
      have hI2 := inv_exec hI h2
      refine ⟨readTrue_exec hr h2, q4, q5, q3, ?_⟩
      rw [hI2.closes]; split <;> omega
  · refine ⟨by rw [hcl, if_neg hx]; omega, ?_, ?_, ?_, ?_, ?_⟩
    · rw [hcl, if_neg hx]; simp [hx]
    · rw [hcd]; simp [hx]
    · intro _
      exact ⟨by rw [hcd]; simp [hx], by rw [hcl, if_neg hx]⟩
    · intro a w' ha hne
      rcases closes_step ha with he | ⟨ha1, hl, hc1, hc2, hc3⟩
      · exact absurd he hne
      · have hst : w.stopped = true := hI.flag (by rw [hl]; rfl)
        have h0 : w.closes = 0 := by rw [hcl, if_neg hx]
        exact ⟨ha1, hl, hst, h0, by rw [hc1, h0], hc2, hc3⟩
    · intro hr
      have hst : w.stopped = true := hI.flag hr
      refine ⟨?_, ?_⟩
      · intro tr2 w2 h2
        obtain ⟨_, _, q3, q4, q5⟩ := quiet_after hI hst (sendsLeft_of_readTrue hr) h2
        have hI2 := inv_exec hI h2
        refine ⟨readTrue_exec hr h2, q4, q5, q3, ?_⟩
        rw [hI2.closes]; split <;> omega
      · obtain ⟨tr2, w2, h2, hl2, hc2⟩ := closes_within (stepsLeft w) w hI hst (Nat.le_refl _)
        have hI2 := inv_exec hI h2
        exact ⟨tr2, w2, h2, hl2, hc2, by rw [hI2.closes, if_pos hl2]⟩

/-- In the scenario `Stream` has been closed exactly once, by the loop that
has exited. -/
theorem C8_scenario_witness :
    exec (NewMonitor ["name=web"] 1) scenario = some scenarioEnd ∧
    scenarioEnd.closes = 1 ∧ scenarioEnd.loop = .exited ∧ scenarioEnd.closed = true ∧
    (scenarioEnd.closes = 1 ↔ scenarioEnd.loop = .exited) :=
  ⟨rfl, rfl, rfl, rfl,
    (C8_stream_closed_once_on_stop ["name=web"] 1 scenario scenarioEnd rfl).2.1⟩

/-- C1: let a call of `Stop` have returned in a reachable state `w1`. Then in
every continuation at most one more result is received from `Stream`. When
that one send has happened (or when the loop had no call or send under way as
`Stop` returned), `stopped` is set and the loop is at the top of its loop or
beyond with nothing in flight, and in every further continuation:
nothing more is received, `Comm.Stats` is not called again, every read of
the flag by the loop gives `true`, the loop needs at most four more steps
(lock, read, unlock, close), `Stream` is closed exactly when the loop has
exited, and there is a schedule on which `Stream` is closed with nothing
more received. -/
theorem C1_at_most_one_send_after_stop (fs : List String) (k : Nat) (pre : List Action)
    (w1 : MState) (h1 : exec (NewMonitor fs k) pre = some w1) (hs : stopReturned w1 = true)
    (post : List Action) (w2 : MState) (h2 : exec w1 post = some w2) :
    w2.received.length ≤ w1.received.length + 1 ∧
    (w2.received.length = w1.received.length + 1 ∨ draining w1.loop = true →
      w2.stopped = true ∧ draining w2.loop = true ∧
      ∀ tr w3, exec w2 tr = some w3 →
        w3.received = w2.received ∧ w3.calls = w2.calls ∧ w3.stopped = true ∧
        draining w3.loop = true ∧ (∀ b, w3.loop = .unlock b → b = true) ∧
        loopLeft w3.loop ≤ 4 ∧ (w3.closed = true ↔ w3.loop = .exited) ∧
        ∃ tr4 w4, exec w3 tr4 = some w4 ∧ w4.closed = true ∧ w4.received = w2.received) := by
  have hI1 := inv_reachable h1
  have hst1 := stopReturned_stopped hI1 hs
  have hI2 := inv_exec hI1 h2
  obtain ⟨p1, p2, _, _⟩ := spent_exec hst1 h2
  have hle := sendsLeft_le_one w1.loop
  refine ⟨by omega, ?_⟩
  intro hlen
  have hz : sendsLeft w2.loop = 0 := by
    rcases hlen with hlen | hd
    · omega
    · exact (quiet_after hI1 hst1 (sendsLeft_of_draining hd) h2).2.1
  refine ⟨p1, (draining_of_sendsLeft hz).1, ?_⟩
  intro tr w3 h3
  have hI3 := inv_exec hI2 h3
  obtain ⟨q1, q2, q3, q4, _⟩ := quiet_after hI2 p1 hz h3
  obtain ⟨d1, _, _, d4, d5⟩ := draining_of_sendsLeft q2
  refine ⟨q3, q4, q1, d1, d5, d4, ?_, ?_⟩
  · rw [hI3.closed]; simp
  · obtain ⟨tr4, w4, h4, _, hc4⟩ := closes_within (stepsLeft w3) w3 hI3 q1 (Nat.le_refl _)
    obtain ⟨_, _, r3, _, _⟩ := quiet_after hI3 q1 q2 h4
    exact ⟨tr4, w4, h4, hc4, by rw [r3, q3]⟩

/-- When `Stop` has returned while the first call was in flight, the result of
that call is the one send that follows. -/
theorem C1_one_send_witness :
    exec (NewMonitor ["name=web"] 1) stopDuringCall = some blockedOnSend ∧
    stopReturned blockedOnSend = true ∧
    exec blockedOnSend [.recv] = some sentAfterStop ∧
    sentAfterStop.received.length = blockedOnSend.received.length + 1 ∧
    sentAfterStop.received.length ≤ blockedOnSend.received.length + 1 :=
  ⟨rfl, rfl, rfl, rfl,
    (C1_at_most_one_send_after_stop ["name=web"] 1 stopDuringCall blockedOnSend
      rfl rfl [.recv] sentAfterStop rfl).1⟩

/-- C5, as stated, fails: `Stream` is unbuffered. On the schedule where `Stop`
is called and returns while the first `Comm.Stats` call is in flight and the
call then returns, the loop is blocked on its send with `Stream` open; no
step other than the consumer's receive is enabled, so with a consumer that
has stopped receiving the state never changes: `Stream` is never closed and
`start` never exits. -/
theorem C5_counterexample :
    exec (NewMonitor ["name=web"] 1) stopDuringCall = some blockedOnSend ∧
    stopReturned blockedOnSend = true ∧
    blockedOnSend.closed = false ∧
    blockedOnSend.loop = .send { stats := some [snapshot "a1" "10%"], error := none } ∧
    (∀ a, a ≠ Action.recv → step blockedOnSend a = none) ∧
    (∀ tr w, Action.recv ∉ tr → exec blockedOnSend tr = some w →
      w = blockedOnSend ∧ w.closed = false ∧ w.loop ≠ .exited) := by
  have stuck : ∀ a, a ≠ Action.recv → step blockedOnSend a = none := by
    intro a ha
    cases a with
    | loop => rfl
    | ret s err => rfl
    | recv => exact absurd rfl ha
    | stop i =>
      cases i with
      | zero => rfl
      | succ n => rfl
  refine ⟨rfl, rfl, rfl, rfl, stuck, ?_⟩
  intro tr w hno h
  cases tr with
  | nil =>
    simp only [exec, Option.some.injEq] at h
    subst h
    exact ⟨rfl, rfl, by decide⟩
  | cons a t =>
    have ha : a ≠ Action.recv := fun e => hno (e ▸ List.mem_cons_self _ _)
    simp only [exec, stuck a ha] at h
    cases h

/-- C5 (amended): once a call of `Stop` has returned, every schedule is
finite (each step uses up one of the `stepsLeft` steps), and as long as the
loop has not exited a step is enabled: a step of the loop, the return of the
`Comm.Stats` call in flight, the receive of the pending result by the
consumer, or a step of a `Stop` that holds the mutex the loop waits for. So
provided the consumer receives the result whose send is pending (if any) and
`Comm.Stats` returns, `Stream` is closed and `start` exits: a state in which
nothing is enabled has `Stream` closed and the loop exited, and such a state
is reached from every state. -/
theorem C5_stream_closes_when_consumer_receives (fs : List String) (k : Nat)
    (pre : List Action) (w : MState) (h : exec (NewMonitor fs k) pre = some w)
    (hs : stopReturned w = true) (tr : List Action) (w2 : MState)
    (h2 : exec w tr = some w2) :
    tr.length + stepsLeft w2 = stepsLeft w ∧
    (w2.loop ≠ .exited →
      (∃ w3, step w2 .loop = some w3) ∨
      (w2.loop = .inStats ∧ ∀ s err, ∃ w3, step w2 (.ret s err) = some w3) ∨
      ((∃ r, w2.loop = .send r) ∧ ∃ w3, step w2 .recv = some w3) ∨
      (w2.loop = .lock ∧ w2.mu = true ∧ ∃ i w3, step w2 (.stop i) = some w3)) ∧
    ((∀ a, step w2 a = none) → w2.loop = .exited ∧ w2.closed = true) ∧
    (w2.loop = .exited ↔ w2.closed = true) ∧
    (∃ tr3 w3, exec w2 tr3 = some w3 ∧ w3.loop = .exited ∧ w3.closed = true) := by
  have hI := inv_reachable h
  have hst := stopReturned_stopped hI hs
  have hI2 := inv_exec hI h2
  obtain ⟨p1, _, _, p4⟩ := spent_exec hst h2
  have hiff : w2.loop = .exited ↔ w2.closed = true := by rw [hI2.closed]; simp
  refine ⟨p4, fun hl => progress hI2 hl, ?_, hiff, ?_⟩
  · intro hnone
    by_cases hl : w2.loop = .exited
    · exact ⟨hl, hiff.mp hl⟩
    · obtain ⟨a, w3, h3⟩ := progress_some hI2 hl
      rw [hnone a] at h3
      cases h3
  · obtain ⟨tr3, w3, h3, hl3, hc3⟩ := closes_within (stepsLeft w2) w2 hI2 p1 (Nat.le_refl _)
    exact ⟨tr3, w3, h3, hl3, hc3⟩

/-- When the consumer receives the result that was pending when `Stop`
returned, four more steps of the loop close `Stream`. -/
theorem C5_receive_then_close_witness :
    exec (NewMonitor ["name=web"] 1) stopDuringCall = some blockedOnSend ∧
    stopReturned blockedOnSend = true ∧
    exec blockedOnSend (.recv :: loopHead) = some closedAfterStop ∧
    closedAfterStop.closed = true ∧ closedAfterStop.loop = .exited ∧
    (Action.recv :: loopHead).length + stepsLeft closedAfterStop = stepsLeft blockedOnSend :=
  ⟨rfl, rfl, rfl, rfl, rfl,
    (C5_stream_closes_when_consumer_receives ["name=web"] 1 stopDuringCall blockedOnSend
      rfl rfl (.recv :: loopHead) closedAfterStop rfl).1⟩

/-! ## The slice shared with `Filters` -/

theorem execEnv_map_sys (w : MState) (tr : List Action) :
    execEnv w (tr.map .sys) = exec w tr := by
  induction tr generalizing w with
  | nil => rfl
  | cons a t ih =>
    simp only [List.map_cons, execEnv, exec, stepEnv]
    cases step w a with
    | none => rfl
    | some w1 => exact ih w1

theorem execEnv_append (w : MState) (t1 t2 : List EnvAction) :
    execEnv w (t1 ++ t2) = (execEnv w t1).bind (fun w1 => execEnv w1 t2) := by
  induction t1 generalizing w with
  | nil => rfl
  | cons a t ih =>
    simp only [List.cons_append, execEnv]
    cases stepEnv w a with
    | none => rfl
    | some w1 => exact ih w1

/-- A step of the monitor leaves `Filters` as it is, and a call it starts
receives the content `Filters` has at that moment. -/
theorem filters_step {w w' : MState} {a : Action} (h : step w a = some w') :
    w'.Filters = w.Filters ∧
    (w'.calls = w.calls ∨
      (a = .loop ∧ w.loop = .test false ∧ w'.calls = w.calls ++ [w.Filters])) := by
  cases a with
  | loop =>
    simp only [step, startStep] at h
    split at h
    · split at h
      · cases h
      · cases h; exact ⟨rfl, Or.inl rfl⟩
    · cases h; exact ⟨rfl, Or.inl rfl⟩
    · cases h; exact ⟨rfl, Or.inl rfl⟩
    · split at h
      · cases h
      · cases h; exact ⟨rfl, Or.inl rfl⟩
    · rename_i hl
      cases h
      exact ⟨rfl, Or.inr ⟨rfl, hl, rfl⟩⟩
    · cases h
    · cases h
    · cases h
  | ret s err =>
    simp only [step, retStep] at h
    split at h
    · cases h; exact ⟨rfl, Or.inl rfl⟩
    · cases h
  | recv =>
    simp only [step, recvStep] at h
    split at h
    · split at h
      · cases h
      · cases h; exact ⟨rfl, Or.inl rfl⟩
    · cases h
  | stop i =>
    simp only [step, stopStep] at h
    split at h
    · cases h; exact ⟨rfl, Or.inl rfl⟩
    · split at h
      · cases h
      · cases h; exact ⟨rfl, Or.inl rfl⟩
    · cases h; exact ⟨rfl, Or.inl rfl⟩
    · cases h; exact ⟨rfl, Or.inl rfl⟩
    · cases h
    · cases h

theorem shape_stepEnv {n : Nat} {w w' : MState} {a : EnvAction}
    (hw : w.Filters.length = n ∧ ∀ c ∈ w.calls, c.length = n)
    (h : stepEnv w a = some w') :
    (w'.Filters.length = n ∧ ∀ c ∈ w'.calls, c.length = n) ∧ ∃ e, w'.calls = w.calls ++ e := by
  cases a with
  | sys b =>
    obtain ⟨hf, hc⟩ := filters_step (a := b) h
    rcases hc with hc | ⟨_, _, hc⟩
    · exact ⟨⟨by rw [hf]; exact hw.1, by rw [hc]; exact hw.2⟩, [], by rw [hc, List.append_nil]⟩
    · refine ⟨⟨by rw [hf]; exact hw.1, ?_⟩, [w.Filters], hc⟩
      intro c hcm
      rw [hc] at hcm
      rcases List.mem_append.mp hcm with hcm | hcm
      · exact hw.2 c hcm
      · rw [List.mem_singleton.mp hcm]; exact hw.1
  | write i v =>
    simp only [stepEnv, writeStep] at h
    split at h
    · cases h
      exact ⟨⟨by simp only [List.length_set]; exact hw.1, hw.2⟩, [], by simp⟩
    · cases h

theorem shape_execEnv {n : Nat} {w w' : MState} {tr : List EnvAction}
    (hw : w.Filters.length = n ∧ ∀ c ∈ w.calls, c.length = n)
    (h : execEnv w tr = some w') :
    (w'.Filters.length = n ∧ ∀ c ∈ w'.calls, c.length = n) ∧ ∃ e, w'.calls = w.calls ++ e := by
  induction tr generalizing w with
  | nil =>
    simp only [execEnv, Option.some.injEq] at h
    subst h
    exact ⟨hw, [], by simp⟩
  | cons a t ih =>
    simp only [execEnv] at h
    split at h
    · cases h
    · rename_i w1 h1
      obtain ⟨hw1, e1, he1⟩ := shape_stepEnv hw h1
      obtain ⟨hw2, e2, he2⟩ := ih hw1 h
      exact ⟨hw2, e1 ++ e2, by rw [he2, he1, List.append_assoc]⟩

/-- C6, as stated, fails: `NewMonitor` stores the slice it is given and
`start` passes that very slice to `comm.Stats`. A communicator that assigns
`f[0] = "name=db"` inside its first call changes `Filters`, and the second
call receives `["name=db"]`, not the list given to `NewMonitor`. -/
theorem C6_counterexample :
    execEnv (NewMonitor ["name=web"] 0) overwritingCall = some overwrittenEnd ∧
    overwrittenEnd.calls = [["name=web"], ["name=db"]] ∧
    overwrittenEnd.Filters = ["name=db"] ∧
    ¬ (∀ c ∈ overwrittenEnd.calls, c = ["name=web"]) ∧
    overwrittenEnd.Filters ≠ (NewMonitor ["name=web"] 0).Filters := by
  refine ⟨rfl, rfl, rfl, ?_, by decide⟩
  intro hall
  exact absurd (hall ["name=db"] (by decide)) (by decide)

/-- C6 (amended): in every state reached from `NewMonitor(comm, fs...)`, with
writes of the communicator and of the caller to the shared slice allowed:
the slice in `Filters` has the length of `fs`, and so has the list every
call received (no token added or removed); no step of `start`, of `Stop`, of
the return of a call or of the consumer changes `Filters`, and a call that
`start` makes receives the content `Filters` has at that moment; as long as
no element has been written, `Filters` is `fs` and every call made has
received exactly `fs`, and those calls stay the first ones made. -/
theorem C6_filters_changed_only_by_writes (fs : List String) (k : Nat)
    (tr : List EnvAction) (w : MState) (h : execEnv (NewMonitor fs k) tr = some w) :
    (NewMonitor fs k).Filters = fs ∧
    w.Filters.length = fs.length ∧ (∀ c ∈ w.calls, c.length = fs.length) ∧
    (∀ a w', step w a = some w' →
      w'.Filters = w.Filters ∧
      (w'.calls = w.calls ∨
        (a = .loop ∧ w.loop = .test false ∧ w'.calls = w.calls ++ [w.Filters]))) ∧
    (∀ (tr1 : List Action) (tr2 : List EnvAction), tr = tr1.map .sys ++ tr2 →
      ∃ w1, exec (NewMonitor fs k) tr1 = some w1 ∧ w1.Filters = fs ∧
        (∀ c ∈ w1.calls, c = fs) ∧ w1.calls = List.replicate w1.calls.length fs ∧
        (∃ e, w.calls = w1.calls ++ e) ∧ (tr2 = [] → w = w1)) := by
  have h0 : (NewMonitor fs k).Filters.length = fs.length ∧
      ∀ c ∈ (NewMonitor fs k).calls, c.length = fs.length :=
    ⟨rfl, fun c hc => by cases hc⟩
  obtain ⟨⟨hlen, hcalls⟩, _⟩ := shape_execEnv h0 h
  refine ⟨rfl, hlen, hcalls, fun a w' ha => filters_step ha, ?_⟩
  intro tr1 tr2 htr
  rw [htr, execEnv_append, execEnv_map_sys] at h
  cases h1 : exec (NewMonitor fs k) tr1 with
  | none => rw [h1] at h; cases h
  | some w1 =>
    rw [h1] at h
    simp only [Option.bind] at h
    have hI := inv_reachable h1
    have hs1 : w1.Filters.length = fs.length ∧ ∀ c ∈ w1.calls, c.length = fs.length :=
      ⟨by rw [hI.Filters], fun c hc => by rw [hI.calls c hc]⟩
    obtain ⟨_, e, he⟩ := shape_execEnv hs1 h
    refine ⟨w1, rfl, hI.Filters, hI.calls, List.eq_replicate_iff.mpr ⟨rfl, hI.calls⟩,
      ⟨e, he⟩, ?_⟩
    intro h2
    subst h2
    simp only [execEnv, Option.some.injEq] at h
    exact h.symm

/-- In the scenario, where nothing writes the shared slice, the four calls of
`comm.Stats` all received the filter list given to `NewMonitor`. -/
theorem C6_scenario_witness :
    execEnv (NewMonitor ["name=web"] 1) (scenario.map .sys) = some scenarioEnd ∧
    scenarioEnd.calls.length = 4 ∧
    (∃ w1, exec (NewMonitor ["name=web"] 1) scenario = some w1 ∧ w1.Filters = ["name=web"] ∧
      (∀ c ∈ w1.calls, c = ["name=web"]) ∧
      w1.calls = List.replicate w1.calls.length ["name=web"] ∧
      (∃ e, scenarioEnd.calls = w1.calls ++ e) ∧ (([] : List EnvAction) = [] → scenarioEnd = w1)) :=
  ⟨rfl, rfl,
    (C6_filters_changed_only_by_writes ["name=web"] 1 (scenario.map .sys) scenarioEnd rfl).2.2.2.2
      scenario [] (List.append_nil _).symm⟩

end Dockerstats
